import Mathlib

/-!
Shallow embedding of the virtual-memory subsystem of the `sparkle` kernel
(`src/arch/x86_64/memory/mod.rs` and `src/arch/x86_64/memory/paging/mod.rs`),
together with proofs settling the frozen claims about it.

Physical memory is modelled as an association list from physical frame index
to a table (a total function from slot index to the raw 64-bit entry value,
as a `Nat`).  A frame index that does not occur as a key denotes a frame the
paging code has never written; all its entries read as `0` (not present).
Hardware effects (entry writes, table zeroing, TLB flushes, control-register
writes) are additionally recorded as an explicit `Op` trace so that claims
about flush ordering and about the control register never being written can
be stated over the trace.  A Rust `panic!` / failed `assert!` / `expect` is
modelled as `none`: in this kernel a panic never unwinds (`panic_fmt` loops),
so a panicking call simply never returns.
-/

namespace Sparkle

/-- Translated from `memory/mod.rs`: `pub const PAGE_SIZE: usize = 4096`. -/
def PAGE_SIZE : Nat := 4096

/-- Translated from `memory/mod.rs`: a frame of physical memory, identified by
its index. -/
structure Frame where
  index : Nat
deriving DecidableEq

/-- Translated from `memory/mod.rs`: `Frame::containing_address`. -/
def Frame.containing_address (address : Nat) : Frame :=
  ⟨address / PAGE_SIZE⟩

/-- Translated from `memory/mod.rs`: `Frame::next_frame`. -/
def Frame.next_frame (f : Frame) : Frame :=
  ⟨f.index + 1⟩

/-- Translated from `memory/mod.rs`: `Frame::start_address`. -/
def Frame.start_address (f : Frame) : Nat :=
  f.index * PAGE_SIZE

/-- Modelled from the spec: `Frame::SIZE` of the (missing) `paging/frame.rs`,
the page size used by `remap_kernel` for the alignment assertion; the spec
fixes one frame size of 4096 for the whole subsystem. -/
def Frame.SIZE : Nat := PAGE_SIZE

/-- Translated from `memory/mod.rs`: the `FrameIter` struct.  Rust's field
`end` is a Lean keyword, so it is called `stop` here. -/
structure FrameIter where
  start : Frame
  stop : Frame

/-- Translated from `memory/mod.rs`: `Frame::range_inclusive`. -/
def Frame.range_inclusive (start stop : Frame) : FrameIter :=
  ⟨start, stop⟩

/-- Translated from `memory/mod.rs`: `Iterator::next` for `FrameIter`.  The
derived `Ord` on `Frame` compares the single field `index`, so `start <= end`
is `start.index ≤ stop.index`. -/
def FrameIter.next (it : FrameIter) : Option (Frame × FrameIter) :=
  if it.start.index ≤ it.stop.index then
    some (it.start, ⟨it.start.next_frame, it.stop⟩)
  else
    none

/-- One step of iterating `FrameIter.next`, with the number of remaining
steps made explicit so the function is structurally recursive (and therefore
evaluates definitionally). -/
def FrameIter.toListGo : Nat → Frame → Frame → List Frame
  | 0, _, _ => []
  | n + 1, start, stop =>
    if start.index ≤ stop.index then
      start :: FrameIter.toListGo n start.next_frame stop
    else
      []

/-- List of all frames produced by repeatedly calling `FrameIter.next`; the
iterator yields at most `stop.index + 1 - start.index` frames. -/
def FrameIter.toList (it : FrameIter) : List Frame :=
  FrameIter.toListGo (it.stop.index + 1 - it.start.index) it.start it.stop

/-- Modelled from the spec: the `Page` type of the missing `paging/page.rs`; a
virtual page identified by its index (`Page::new`). -/
structure Page where
  index : Nat
deriving DecidableEq

/-- Modelled from the spec: `Page::containing_address` of the missing
`paging/page.rs`. -/
def Page.containing_address (address : Nat) : Page :=
  ⟨address / PAGE_SIZE⟩

/-- Modelled from the spec: `Page::start_address` of the missing
`paging/page.rs`. -/
def Page.start_address (p : Page) : Nat :=
  p.index * PAGE_SIZE

/-- Modelled from the spec: the top nine-bit slice of the page index (the P4
table slot), one of the four 9-bit indices of the missing `paging/page.rs`. -/
def Page.p4_index (p : Page) : Nat := p.index / 2 ^ 27 % 512

/-- Modelled from the spec: the second nine-bit slice of the page index. -/
def Page.p3_index (p : Page) : Nat := p.index / 2 ^ 18 % 512

/-- Modelled from the spec: the third nine-bit slice of the page index. -/
def Page.p2_index (p : Page) : Nat := p.index / 2 ^ 9 % 512

/-- Modelled from the spec: the low nine bits of the page index (the P1 table
slot). -/
def Page.p1_index (p : Page) : Nat := p.index % 512

/-- Modelled from the spec: `EntryFlags::PRESENT` (bit 0) of the missing
`paging/table.rs`. -/
def PRESENT : Nat := 1

/-- Modelled from the spec: `EntryFlags::WRITABLE` (bit 1). -/
def WRITABLE : Nat := 2

/-- Modelled from the spec: the no-execute bit (bit 63, value `2 ^ 63`). -/
def NO_EXECUTE : Nat := 9223372036854775808

/-- Bound `2 ^ 52`: the physical-address field of an entry occupies bits 12-51,
per the spec's entry layout (52 bits of physical frame number, low 12 bits of
flags, no-execute in the top bit). -/
def ADDR_RANGE : Nat := 4503599627370496

/-- Modelled from the spec: `Entry::set(frame, flags)` stores the frame's start
address together with the flag bits.  All flag values used in this subsystem
(`PRESENT`, `WRITABLE`, `NO_EXECUTE`) are disjoint from the address bits, so
bitwise-or is addition here. -/
def entryNew (f : Frame) (flags : Nat) : Nat :=
  f.start_address + flags

/-- Modelled from the spec: `Entry::pointed_frame` — if the `PRESENT` bit is
set, the frame whose start address sits in bits 12-51 of the entry. -/
def pointedFrame (e : Nat) : Option Nat :=
  if e % 2 = 1 then some (e % ADDR_RANGE / PAGE_SIZE) else none

/-- Modelled from the spec: `map_to` sets `flags | PRESENT`; for our additive
flag encoding this sets bit 0 only when it is not already set. -/
def orPresent (flags : Nat) : Nat :=
  if flags % 2 = 1 then flags else flags + PRESENT

/-- Physical memory: an association list from physical frame index to the
frame's content viewed as a table of raw entries.  A missing key is a frame
the paging code never wrote; its entries all read as zero. -/
abbrev Mem := List (Nat × (Nat → Nat))

/-- Read one raw entry of one physical frame. -/
def memRead : Mem → Nat → Nat → Nat
  | [], _, _ => 0
  | (u, tab) :: rest, t, i => if t = u then tab i else memRead rest t i

/-- Write one raw entry of one physical frame. -/
def memWrite (m : Mem) (t i v : Nat) : Mem :=
  (t, fun j => if j = i then v else memRead m t j) :: m

/-- Modelled from the spec: `Table::zero` — overwrite a whole frame with zero
entries. -/
def zeroFrame (m : Mem) (t : Nat) : Mem :=
  (t, fun _ => 0) :: m

/-- The frame indices the paging code has written so far (the keys of the
association list, possibly with shadowed duplicates). -/
def framesOf (m : Mem) : List Nat :=
  m.map Prod.fst

/-- Hardware-effect trace entries: entry writes, table zeroing, the two flush
instructions, and control-register writes. -/
inductive Op where
  | writeEntry (t i v : Nat)
  | zeroTable (t : Nat)
  | flushAll
  | flushOne (page : Nat)
  | writeCr3 (f : Nat)
deriving DecidableEq

/-- Machine state: physical memory, the P4 frame index held in the hardware
control register (Cr3), and the caller's `FrameAllocator` modelled as its list
of still-free frames (`alloc_frame` hands out the head; `dealloc_frame`
pushes). -/
structure Machine where
  mem : Mem
  cr3 : Nat
  free : List Frame

/-- Translated from `memory/mod.rs`: the `FrameAllocator` contract's
`alloc_frame`, for the list-of-free-frames allocator instance used here. -/
def alloc_frame : List Frame → Option (Frame × List Frame)
  | [] => none
  | f :: rest => some (f, rest)

/-- Modelled from the spec: the walk P4→P3→P2 of the missing
`paging/mapper.rs`, returning the three lower table frames for a page, or
`none` as soon as a level is absent. -/
def chainOf (m : Mem) (root : Nat) (p : Page) : Option (Nat × Nat × Nat) :=
  match pointedFrame (memRead m root p.p4_index) with
  | none => none
  | some f3 =>
    match pointedFrame (memRead m f3 p.p3_index) with
    | none => none
    | some f2 =>
      match pointedFrame (memRead m f2 p.p2_index) with
      | none => none
      | some f1 => some (f3, f2, f1)

/-- Modelled from the spec: `Mapper::translate` restricted to whole pages —
walk P4→P1 from the given root and return the mapped frame index, or `none`
if any level is absent. -/
def translatePage (m : Mem) (root : Nat) (p : Page) : Option Nat :=
  match chainOf m root p with
  | none => none
  | some (_, _, f1) => pointedFrame (memRead m f1 p.p1_index)

/-- The raw P1 entry a page resolves to (used to state which flags a mapping
carries). -/
def p1EntryOf (m : Mem) (root : Nat) (p : Page) : Option Nat :=
  match chainOf m root p with
  | none => none
  | some (_, _, f1) => some (memRead m f1 p.p1_index)

/-- Modelled from the spec: resolution of the recursive virtual address whose
four table indices are all 511.  Starting from the control register, the
hardware follows slot 511 four times; the resulting frame is the one the
`Mapper`'s table walk actually edits.  This is how the active mapper's code
services whichever table is wired through the recursive slot. -/
def resolveRec (m : Mem) (cr3 : Nat) : Option Nat :=
  match pointedFrame (memRead m cr3 511) with
  | none => none
  | some a =>
    match pointedFrame (memRead m a 511) with
    | none => none
    | some b =>
      match pointedFrame (memRead m b 511) with
      | none => none
      | some c => pointedFrame (memRead m c 511)

/-- The root frame the active mapper currently edits through the recursive
slot. -/
def activeRoot (st : Machine) : Option Nat :=
  resolveRec st.mem st.cr3

/-- Translation as performed through the active mapper (recursive-slot
resolution followed by the four-level walk). -/
def mapperTranslate (st : Machine) (p : Page) : Option Nat :=
  match activeRoot st with
  | none => none
  | some r => translatePage st.mem r p

/-- Modelled from the spec: `Table::next_table_create` of the missing
`paging/table.rs` — descend one level, allocating, zeroing and linking
(present + writable) a fresh child table if the entry is absent; `none` when
the allocator is exhausted. -/
def next_table_create (m : Mem) (t idx : Nat) (free : List Frame) :
    Option (Nat × Mem × List Frame × List Op) :=
  match pointedFrame (memRead m t idx) with
  | some c => some (c, m, free, [])
  | none =>
    match free with
    | [] => none
    | g :: rest =>
      some (g.index,
        memWrite (zeroFrame m g.index) t idx (entryNew g (PRESENT + WRITABLE)),
        rest,
        [Op.zeroTable g.index, Op.writeEntry t idx (entryNew g (PRESENT + WRITABLE))])

/-- Modelled from the spec: `Mapper::map_to` of the missing
`paging/mapper.rs` — create/descend P4→P3→P2, then set the P1 entry to the
frame with `flags | PRESENT`; overwriting an already-used entry is a logic
error and fails (`none`) rather than silently aliasing. -/
def map_to (m : Mem) (root : Nat) (p : Page) (f : Frame) (flags : Nat)
    (free : List Frame) : Option (Mem × List Frame × List Op) :=
  match next_table_create m root p.p4_index free with
  | none => none
  | some (f3, m1, free1, o1) =>
    match next_table_create m1 f3 p.p3_index free1 with
    | none => none
    | some (f2, m2, free2, o2) =>
      match next_table_create m2 f2 p.p2_index free2 with
      | none => none
      | some (f1, m3, free3, o3) =>
        if memRead m3 f1 p.p1_index = 0 then
          some (memWrite m3 f1 p.p1_index (entryNew f (orPresent flags)), free3,
            o1 ++ o2 ++ o3
              ++ [Op.writeEntry f1 p.p1_index (entryNew f (orPresent flags))])
        else none

/-- Modelled from the spec: `Mapper::unmap` of the missing
`paging/mapper.rs` — the page must currently translate; clear its P1 entry,
invalidate that single address in the TLB, and return the freed frame to the
allocator.  An absent mapping is a caller error (`none`). -/
def unmapMem (m : Mem) (root : Nat) (p : Page) (free : List Frame) :
    Option (Mem × List Frame × List Op) :=
  match chainOf m root p with
  | none => none
  | some (_, _, f1) =>
    match pointedFrame (memRead m f1 p.p1_index) with
    | none => none
    | some fr =>
      some (memWrite m f1 p.p1_index 0, Frame.mk fr :: free,
        [Op.writeEntry f1 p.p1_index 0, Op.flushOne p.index])

/-- Modelled from the spec: `Mapper::identity_map` against the active
recursive root, drawing table frames from the machine's main allocator —
`map_to(Page::containing_address(frame.start_address()), frame, flags)`. -/
def identity_map (st : Machine) (f : Frame) (flags : Nat) :
    Option (Machine × List Op) :=
  match activeRoot st with
  | none => none
  | some r =>
    match map_to st.mem r (Page.containing_address f.start_address) f flags st.free with
    | none => none
    | some (m, fr, o) => some ({ mem := m, cr3 := st.cr3, free := fr }, o)

/-- Translated from `paging/mod.rs`: `active_table.unmap(page, allocator)` —
`Mapper::unmap` against the active recursive root, returning the freed frame
to the machine's main allocator. -/
def unmapActive (st : Machine) (p : Page) : Option (Machine × List Op) :=
  match activeRoot st with
  | none => none
  | some r =>
    match unmapMem st.mem r p st.free with
    | none => none
    | some (m, fr, o) => some ({ mem := m, cr3 := st.cr3, free := fr }, o)

/-- Modelled from the spec: the `TemporaryPage` of the missing
`paging/temporary_page.rs` — one reserved virtual page plus a private
three-frame reserve used for the P3/P2/P1 tables of its own mapping. -/
structure TemporaryPage where
  page : Page
  pool : List Frame

/-- Modelled from the spec: `TemporaryPage::new` draws the three frames of the
private reserve from the caller's allocator. -/
def TemporaryPage.new (p : Page) (free : List Frame) :
    Option (TemporaryPage × List Frame) :=
  match free with
  | a :: b :: c :: rest => some (⟨p, [a, b, c]⟩, rest)
  | _ => none

/-- Modelled from the spec: `TemporaryPage::map_table_frame` — map the given
physical frame, writable, at the reserved virtual page using the currently
active mapper and the private reserve. -/
def TemporaryPage.map_table_frame (tp : TemporaryPage) (f : Frame)
    (st : Machine) : Option (Machine × TemporaryPage × List Op) :=
  match activeRoot st with
  | none => none
  | some r =>
    match map_to st.mem r tp.page f WRITABLE tp.pool with
    | none => none
    | some (m, pool2, o) => some ({ st with mem := m }, ⟨tp.page, pool2⟩, o)

/-- Modelled from the spec: `TemporaryPage::unmap` — remove the reserved
page's single mapping through the currently active mapper; the frame that was
mapped is returned to the private reserve. -/
def TemporaryPage.unmap (tp : TemporaryPage) (st : Machine) :
    Option (Machine × TemporaryPage × List Op) :=
  match activeRoot st with
  | none => none
  | some r =>
    match unmapMem st.mem r tp.page tp.pool with
    | none => none
    | some (m, pool2, o) => some ({ st with mem := m }, ⟨tp.page, pool2⟩, o)

/-- Translated from `paging/mod.rs`: an inactive P4 table, owning its frame. -/
structure InactivePageTable where
  p4_frame : Frame

/-- Translated from `paging/mod.rs`: `InactivePageTable::new` — map the frame
at the temporary page, zero it, write its own self-reference (present +
writable) at slot 511, unmap the temporary page. -/
def InactivePageTable.new (frame : Frame) (st : Machine) (tp : TemporaryPage) :
    Option (InactivePageTable × Machine × TemporaryPage × List Op) :=
  match tp.map_table_frame frame st with
  | none => none
  | some (st1, tp1, o1) =>
    match tp1.unmap { st1 with
        mem := memWrite (zeroFrame st1.mem frame.index) frame.index 511
          (entryNew frame (PRESENT + WRITABLE)) } with
    | none => none
    | some (st3, tp2, o2) =>
      some (⟨frame⟩, st3, tp2,
        o1 ++ [Op.zeroTable frame.index,
               Op.writeEntry frame.index 511 (entryNew frame (PRESENT + WRITABLE))]
           ++ o2)

/-- Write one entry of one physical frame, at machine level. -/
def writeEntrySt (st : Machine) (t i v : Nat) : Machine :=
  { st with mem := memWrite st.mem t i v }

/-- The frame backed up at the start of `with` and demoted by `switch`:
`Frame::containing_address(Cr3::read().0.start_address())`, with the control
register modelled as the active P4 frame index. -/
def backupOf (st : Machine) : Frame :=
  Frame.containing_address (Frame.start_address (Frame.mk st.cr3))

/-- Translated from `paging/mod.rs`: `ActivePageTable::with` — back up the
current P4 frame (read from Cr3), map it at the scratch page, overwrite the
active recursive slot 511 with the inactive table's frame, flush all TLBs, run
the body, restore the original self-reference through the scratch-page view of
the backed-up frame, flush all TLBs again, unmap the scratch page.  `with` is
a Lean keyword, so the definition is named `withTable`.  The restoration write
lands on the backed-up physical frame because that is what the scratch page
maps; the body's writes go wherever the recursive slot then resolves
(`activeRoot`). -/
def withTable (st : Machine) (table : InactivePageTable)
    (scratch_page : TemporaryPage) (f : Machine → Option (Machine × List Op)) :
    Option (Machine × TemporaryPage × List Op) :=
  match scratch_page.map_table_frame (backupOf st) st with
  | none => none
  | some (st1, tp1, o1) =>
    match activeRoot st1 with
    | none => none
    | some tgt =>
      match f (writeEntrySt st1 tgt 511 (entryNew table.p4_frame (PRESENT + WRITABLE))) with
      | none => none
      | some (st3, o3) =>
        match tp1.unmap (writeEntrySt st3 (backupOf st).index 511
            (entryNew (backupOf st) (PRESENT + WRITABLE))) with
        | none => none
        | some (st5, tp2, o5) =>
          some (st5, tp2,
            o1 ++ [Op.writeEntry tgt 511 (entryNew table.p4_frame (PRESENT + WRITABLE)),
                   Op.flushAll]
               ++ o3
               ++ [Op.writeEntry (backupOf st).index 511
                     (entryNew (backupOf st) (PRESENT + WRITABLE)),
                   Op.flushAll]
               ++ o5)

/-- Translated from `paging/mod.rs`: `ActivePageTable::switch` — demote the
current table to inactive (its frame read from Cr3), write Cr3 to the new
table's P4 frame; no explicit TLB flush. -/
def switch (st : Machine) (new_table : InactivePageTable) :
    InactivePageTable × Machine × List Op :=
  (⟨backupOf st⟩,
   { st with cr3 := new_table.p4_frame.index },
   [Op.writeCr3 new_table.p4_frame.index])

/-- One ELF section as read from the multiboot boot information: start
address, size, and the allocated/writable/executable attributes. -/
structure ElfSection where
  addr : Nat
  size : Nat
  allocated : Bool
  writable : Bool
  executable : Bool

/-- Section start address, as on the multiboot interface. -/
def ElfSection.start_address (s : ElfSection) : Nat := s.addr

/-- Section end address (`addr + size`), as on the multiboot interface. -/
def ElfSection.end_address (s : ElfSection) : Nat := s.addr + s.size

/-- Whether the section occupies memory at runtime. -/
def ElfSection.is_allocated (s : ElfSection) : Bool := s.allocated

/-- One entry of the multiboot memory map (only read by `init`). -/
structure MemoryArea where
  base_addr : Nat
  length : Nat

/-- The multiboot boot information, at the interface the core reads: optional
tag contents plus the structure's own address range. -/
structure BootInformation where
  elf_sections_tag : Option (List ElfSection)
  memory_map_tag : Option (List MemoryArea)
  start_address : Nat
  end_address : Nat

/-- Modelled from the spec: `EntryFlags::from_elf_section_flags` of the
missing `paging/table.rs` — writable section ⇒ `WRITABLE`; non-executable
section ⇒ no-execute bit. -/
def EntryFlags.from_elf_section_flags (s : ElfSection) : Nat :=
  (if s.writable then WRITABLE else 0) + (if s.executable then 0 else NO_EXECUTE)

/-- Identity-map each frame of the list in order with the given flags (the
`for frame in Frame::range_inclusive(..)` loops of `remap_kernel`). -/
def mapFramesWith (flags : Nat) : List Frame → Machine → Option (Machine × List Op)
  | [], st => some (st, [])
  | f :: rest, st =>
    match identity_map st f flags with
    | none => none
    | some (st1, o1) =>
      match mapFramesWith flags rest st1 with
      | none => none
      | some (st2, o2) => some (st2, o1 ++ o2)

/-- Translated from `paging/mod.rs`: the section loop of `remap_kernel`'s
closure — skip non-allocated sections, assert the start address is
page-aligned (a misaligned section is fatal), derive the flags from the
section attributes, identity-map every frame from the one containing the
start address to the one containing `end_address - 1`. -/
def mapSections : List ElfSection → Machine → Option (Machine × List Op)
  | [], st => some (st, [])
  | s :: rest, st =>
    if s.is_allocated = false then mapSections rest st
    else if s.start_address % Frame.SIZE = 0 then
      match mapFramesWith (EntryFlags.from_elf_section_flags s)
          (Frame.range_inclusive (Frame.containing_address s.start_address)
            (Frame.containing_address (s.end_address - 1))).toList st with
      | none => none
      | some (st1, o1) =>
        match mapSections rest st1 with
        | none => none
        | some (st2, o2) => some (st2, o1 ++ o2)
    else none

/-- Translated from `paging/mod.rs`: the closure passed to `with` inside
`remap_kernel` — map the kernel sections, identity-map the VGA buffer frame
writable, identity-map every frame of the multiboot information structure
present + writable. -/
def remapBody (boot_info : BootInformation) (st : Machine) :
    Option (Machine × List Op) :=
  match boot_info.elf_sections_tag with
  | none => none
  | some secs =>
    match mapSections secs st with
    | none => none
    | some (st1, o1) =>
      match identity_map st1 (Frame.containing_address 0xb8000) WRITABLE with
      | none => none
      | some (st2, o2) =>
        match mapFramesWith (PRESENT + WRITABLE)
            (Frame.range_inclusive (Frame.containing_address boot_info.start_address)
              (Frame.containing_address (boot_info.end_address - 1))).toList st2 with
        | none => none
        | some (st3, o3) => some (st3, o1 ++ o2 ++ o3)

/-- Translated from `paging/mod.rs`: `remap_kernel` — reserve the scratch
page at `Page::new(0xabadcafe)`, allocate a frame for the new table (fatal if
exhausted), build the `InactivePageTable`, run the mapping closure under
`with`, switch to the new table, and unmap the page that held the old P4
table, leaving a guard page. -/
def remap_kernel (boot_info : BootInformation) (st0 : Machine) :
    Option (Machine × List Op) :=
  match TemporaryPage.new (Page.mk 0xabadcafe) st0.free with
  | none => none
  | some (tp, free1) =>
    match alloc_frame free1 with
    | none => none
    | some (f, free2) =>
      match InactivePageTable.new f { st0 with free := free2 } tp with
      | none => none
      | some (new_table, st3, tp1, o1) =>
        match withTable st3 new_table tp1 (remapBody boot_info) with
        | none => none
        | some (st4, _tp2, o2) =>
          match unmapActive (switch st4 new_table).2.1
              (Page.containing_address (Frame.start_address (switch st4 new_table).1.p4_frame)) with
          | none => none
          | some (st6, o4) => some (st6, o1 ++ o2 ++ (switch st4 new_table).2.2 ++ o4)

/-- Translated from `memory/mod.rs`: `memory::init`.  The
`assert_first_call!` macro (whose module is not in the sources) is modelled
from the spec as a flag passed in: a second call is fatal.  The required
multiboot tags are read (`expect`), the kernel extent is computed from the
allocated sections (`unwrap` of min/max is fatal when no section is
allocated), and `remap_kernel` runs.  The `AreaFrameAllocator` construction
is out of scope per the spec; the allocator it would yield is the machine's
free list. -/
def init (already_called : Bool) (boot_info : BootInformation) (st : Machine) :
    Option Machine :=
  if already_called then none
  else
    match boot_info.memory_map_tag with
    | none => none
    | some _ =>
      match boot_info.elf_sections_tag with
      | none => none
      | some secs =>
        if (secs.filter fun s => s.is_allocated).isEmpty then none
        else
          match remap_kernel boot_info st with
          | none => none
          | some (st1, _) => some st1

/-! Basic lemmas about frames, pages, memory reads and writes. -/

@[simp]
theorem Frame.containing_start (f : Frame) :
    Frame.containing_address (Frame.start_address f) = f := by
  simp [Frame.containing_address, Frame.start_address, PAGE_SIZE]

@[simp]
theorem Page.containing_frame_start (f : Frame) :
    Page.containing_address (Frame.start_address f) = Page.mk f.index := by
  simp [Page.containing_address, Frame.start_address, PAGE_SIZE]

@[simp]
theorem memRead_nil (t i : Nat) : memRead [] t i = 0 := rfl

@[simp]
theorem memRead_memWrite (m : Mem) (t i v a b : Nat) :
    memRead (memWrite m t i v) a b =
      if a = t then (if b = i then v else memRead m t b) else memRead m a b := by
  simp [memWrite, memRead]

@[simp]
theorem memRead_zeroFrame (m : Mem) (t a b : Nat) :
    memRead (zeroFrame m t) a b = if a = t then 0 else memRead m a b := by
  simp [zeroFrame, memRead]

@[simp]
theorem pointedFrame_zero : pointedFrame 0 = none := by
  simp [pointedFrame]

theorem memRead_ne_zero_mem_framesOf {m : Mem} {t i : Nat}
    (h : memRead m t i ≠ 0) : t ∈ framesOf m := by
  induction m with
  | nil => simp [memRead] at h
  | cons hd tl ih =>
    obtain ⟨u, tab⟩ := hd
    simp only [memRead] at h
    by_cases ht : t = u
    · simp [framesOf, ht]
    · simp only [if_neg ht] at h
      simpa [framesOf] using Or.inr (by simpa [framesOf] using ih h)

@[simp]
theorem framesOf_memWrite (m : Mem) (t i v : Nat) :
    framesOf (memWrite m t i v) = t :: framesOf m := rfl

@[simp]
theorem framesOf_zeroFrame (m : Mem) (t : Nat) :
    framesOf (zeroFrame m t) = t :: framesOf m := rfl

theorem pointedFrame_of_memRead_isSome {m : Mem} {t i : Nat}
    (h : (pointedFrame (memRead m t i)).isSome) : t ∈ framesOf m := by
  apply memRead_ne_zero_mem_framesOf
  intro h0
  rw [h0] at h
  simp at h

/-! C7: `Frame::containing_address` bounds and round trip. -/

/-- Claim C7: for every address `a`,
`Frame::containing_address(a).start_address() <= a <
Frame::containing_address(a).start_address() + PAGE_SIZE`, and for every frame
`f`, `Frame::containing_address(f.start_address()) = f`. -/
theorem frame_containing_address_spec (a : Nat) (f : Frame) :
    (Frame.containing_address a).start_address ≤ a
    ∧ a < (Frame.containing_address a).start_address + PAGE_SIZE
    ∧ Frame.containing_address f.start_address = f := by
  refine ⟨?_, ?_, Frame.containing_start f⟩ <;>
    simp [Frame.containing_address, Frame.start_address, PAGE_SIZE] <;> omega

/-! C8: `Frame::range_inclusive` iteration. -/

theorem FrameIter.toListGo_spec (n : Nat) (s e : Frame)
    (hn : n = e.index + 1 - s.index) :
    FrameIter.toListGo n s e = (List.range' s.index n).map Frame.mk := by
  induction n generalizing s with
  | zero => simp [FrameIter.toListGo]
  | succ k ih =>
    have hle : s.index ≤ e.index := by omega
    rw [FrameIter.toListGo, if_pos hle]
    rw [ih s.next_frame (by simp [Frame.next_frame]; omega)]
    rw [List.range'_succ]
    simp [Frame.next_frame]

theorem FrameIter.toList_spec (it : FrameIter) :
    it.toList
      = (List.range' it.start.index (it.stop.index + 1 - it.start.index)).map Frame.mk :=
  FrameIter.toListGo_spec _ _ _ rfl

/-- Claim C8: `Frame::range_inclusive(start, end)` iterates exactly the frames
with indices `start.index, start.index + 1, ..., end.index` in increasing
order; `range_inclusive(f, f)` yields exactly `[f]`; and `range_inclusive(f2,
f1)` with `f1 < f2` yields the empty sequence. -/
theorem frame_range_inclusive_spec (s e f f1 f2 : Frame) :
    (Frame.range_inclusive s e).toList
        = (List.range' s.index (e.index + 1 - s.index)).map Frame.mk
    ∧ (Frame.range_inclusive f f).toList = [f]
    ∧ (f1.index < f2.index → (Frame.range_inclusive f2 f1).toList = []) := by
  refine ⟨FrameIter.toList_spec _, ?_, ?_⟩
  · rw [FrameIter.toList_spec]
    simp [Frame.range_inclusive]
  · intro h
    rw [FrameIter.toList_spec]
    simp [Frame.range_inclusive]
    omega

/-- Witness for C8 at concrete frames: `f1 = 3 < 7 = f2` and the descending
range is empty. -/
theorem frame_range_inclusive_spec_witness :
    (3 : Nat) < 7 ∧ (Frame.range_inclusive ⟨7⟩ ⟨3⟩).toList = [] :=
  ⟨by decide, (frame_range_inclusive_spec ⟨0⟩ ⟨0⟩ ⟨0⟩ ⟨3⟩ ⟨7⟩).2.2 (by decide)⟩

/-! C4: `ActivePageTable::switch`. -/

/-- Claim C4: `switch(new_table)` writes the control register to `new_table`'s
P4 frame, issues no explicit TLB flush, and returns an `InactivePageTable`
whose `p4_frame` is exactly the frame that was the active P4 immediately
before the call. -/
theorem switch_spec (st : Machine) (t : InactivePageTable) :
    (switch st t).1 = InactivePageTable.mk (Frame.mk st.cr3)
    ∧ (switch st t).2.1.cr3 = t.p4_frame.index
    ∧ Op.writeCr3 t.p4_frame.index ∈ (switch st t).2.2
    ∧ Op.flushAll ∉ (switch st t).2.2
    ∧ ∀ p, Op.flushOne p ∉ (switch st t).2.2 := by
  refine ⟨?_, rfl, ?_, ?_, ?_⟩ <;> simp [switch, backupOf]

/-! Inversion and preservation lemmas for `unmapMem` and the recursive-root
resolution, used by the claims about `with`, `InactivePageTable::new` and the
guard page. -/

theorem unmapMem_some_elim {m : Mem} {root : Nat} {p : Page} {free : List Frame}
    {m' : Mem} {free' : List Frame} {o : List Op}
    (h : unmapMem m root p free = some (m', free', o)) :
    ∃ f3 f2 f1 fr, chainOf m root p = some (f3, f2, f1)
      ∧ pointedFrame (memRead m f1 p.p1_index) = some fr
      ∧ m' = memWrite m f1 p.p1_index 0
      ∧ free' = Frame.mk fr :: free
      ∧ o = [Op.writeEntry f1 p.p1_index 0, Op.flushOne p.index] := by
  unfold unmapMem at h
  split at h
  · exact absurd h (by simp)
  · rename_i f3 f2 f1 hc
    split at h
    · exact absurd h (by simp)
    · rename_i fr hp
      refine ⟨f3, f2, f1, fr, hc, hp, ?_, ?_, ?_⟩ <;> cases h <;> rfl

theorem chainOf_some_elim {m : Mem} {root : Nat} {p : Page} {f3 f2 f1 : Nat}
    (h : chainOf m root p = some (f3, f2, f1)) :
    pointedFrame (memRead m root p.p4_index) = some f3
    ∧ pointedFrame (memRead m f3 p.p3_index) = some f2
    ∧ pointedFrame (memRead m f2 p.p2_index) = some f1 := by
  unfold chainOf at h
  split at h
  · exact absurd h (by simp)
  · rename_i a ha
    split at h
    · exact absurd h (by simp)
    · rename_i b hb
      split at h
      · exact absurd h (by simp)
      · rename_i c hc
        obtain ⟨rfl, rfl, rfl⟩ : a = f3 ∧ b = f2 ∧ c = f1 := by
          constructor
          · exact congrArg (fun x => (Option.getD x (0, 0, 0)).1) h
          constructor
          · exact congrArg (fun x => (Option.getD x (0, 0, 0)).2.1) h
          · exact congrArg (fun x => (Option.getD x (0, 0, 0)).2.2) h
        exact ⟨ha, hb, hc⟩

theorem resolveRec_some_elim {m : Mem} {c r : Nat}
    (h : resolveRec m c = some r) :
    ∃ a b d, pointedFrame (memRead m c 511) = some a
      ∧ pointedFrame (memRead m a 511) = some b
      ∧ pointedFrame (memRead m b 511) = some d
      ∧ pointedFrame (memRead m d 511) = some r := by
  unfold resolveRec at h
  split at h
  · exact absurd h (by simp)
  · rename_i a ha
    split at h
    · exact absurd h (by simp)
    · rename_i b hb
      split at h
      · exact absurd h (by simp)
      · rename_i d hd
        exact ⟨a, b, d, ha, hb, hd, h⟩

/-- Reading any location other than the written one is unchanged by a write. -/
theorem memRead_memWrite_other {m : Mem} {t i v a b : Nat}
    (h : ¬(a = t ∧ b = i)) :
    memRead (memWrite m t i v) a b = memRead m a b := by
  simp only [memRead_memWrite]
  split
  · rename_i ha
    rw [if_neg (fun hb => h ⟨ha, hb⟩), ha]
  · rfl

/-- Reading the written location gives the written value. -/
theorem memRead_memWrite_self (m : Mem) (t i v : Nat) :
    memRead (memWrite m t i v) t i = v := by
  simp [memRead_memWrite]

/-- After `unmap` clears a page's P1 entry, translating the page from the same
root yields the empty result, regardless of any aliasing between the cleared
frame and the walk frames: the walk either reads the cleared (now zero) entry
somewhere, or follows the old chain down to the cleared entry itself. -/
theorem translatePage_after_unmapMem {m : Mem} {root : Nat} {p : Page}
    {free : List Frame} {m' : Mem} {free' : List Frame} {o : List Op}
    (h : unmapMem m root p free = some (m', free', o)) :
    translatePage m' root p = none := by
  obtain ⟨f3, f2, f1, fr, hc, _hp, hm', _, _⟩ := unmapMem_some_elim h
  obtain ⟨h4, h3, h2⟩ := chainOf_some_elim hc
  subst hm'
  by_cases e4 : root = f1 ∧ p.p4_index = p.p1_index
  · have r4 : memRead (memWrite m f1 p.p1_index 0) root p.p4_index = 0 := by
      rw [e4.1, e4.2, memRead_memWrite_self]
    simp [translatePage, chainOf, r4]
  · have r4 := memRead_memWrite_other (m := m) (v := 0) e4
    by_cases e3 : f3 = f1 ∧ p.p3_index = p.p1_index
    · have r3 : memRead (memWrite m f1 p.p1_index 0) f3 p.p3_index = 0 := by
        rw [e3.1, e3.2, memRead_memWrite_self]
      simp [translatePage, chainOf, r4, h4, r3]
    · have r3 := memRead_memWrite_other (m := m) (v := 0) e3
      by_cases e2 : f2 = f1 ∧ p.p2_index = p.p1_index
      · have r2 : memRead (memWrite m f1 p.p1_index 0) f2 p.p2_index = 0 := by
          rw [e2.1, e2.2, memRead_memWrite_self]
        simp [translatePage, chainOf, r4, h4, r3, h3, r2]
      · have r2 := memRead_memWrite_other (m := m) (v := 0) e2
        have r1 : memRead (memWrite m f1 p.p1_index 0) f1 p.p1_index = 0 :=
          memRead_memWrite_self m f1 p.p1_index 0
        simp [translatePage, chainOf, r4, h4, r3, h3, r2, h2, r1]

/-- Clearing one entry can only destroy the recursive-slot resolution, never
change it to a different frame. -/
theorem resolveRec_memWrite_zero {m : Mem} {c r t i : Nat}
    (h : resolveRec m c = some r) :
    resolveRec (memWrite m t i 0) c = none
    ∨ resolveRec (memWrite m t i 0) c = some r := by
  obtain ⟨a, b, d, ha, hb, hd, hr⟩ := resolveRec_some_elim h
  by_cases e1 : c = t ∧ (511 : Nat) = i
  · left
    have r1 : memRead (memWrite m t i 0) c 511 = 0 := by
      rw [e1.1, e1.2, memRead_memWrite_self]
    simp [resolveRec, r1]
  · have r1 := memRead_memWrite_other (m := m) (v := 0) e1
    by_cases e2 : a = t ∧ (511 : Nat) = i
    · left
      have r2 : memRead (memWrite m t i 0) a 511 = 0 := by
        rw [e2.1, e2.2, memRead_memWrite_self]
      simp [resolveRec, r1, ha, r2]
    · have r2 := memRead_memWrite_other (m := m) (v := 0) e2
      by_cases e3 : b = t ∧ (511 : Nat) = i
      · left
        have r3 : memRead (memWrite m t i 0) b 511 = 0 := by
          rw [e3.1, e3.2, memRead_memWrite_self]
        simp [resolveRec, r1, ha, r2, hb, r3]
      · have r3 := memRead_memWrite_other (m := m) (v := 0) e3
        by_cases e4 : d = t ∧ (511 : Nat) = i
        · left
          have r4 : memRead (memWrite m t i 0) d 511 = 0 := by
            rw [e4.1, e4.2, memRead_memWrite_self]
          simp [resolveRec, r1, ha, r2, hb, r3, hd, r4]
        · right
          have r4 := memRead_memWrite_other (m := m) (v := 0) e4
          simp [resolveRec, r1, ha, r2, hb, r3, hd, r4, hr]

/-- After a successful `unmap` of a page through the active root, translating
that page through the (possibly re-resolved) active root yields the empty
result. -/
theorem mapperTranslate_after_unmap {st : Machine} {r : Nat} {p : Page}
    {pool : List Frame} {m' : Mem} {pool' : List Frame} {o : List Op}
    (hr : activeRoot st = some r)
    (hu : unmapMem st.mem r p pool = some (m', pool', o))
    {st' : Machine} (hmem : st'.mem = m') (hcr3 : st'.cr3 = st.cr3) :
    mapperTranslate st' p = none := by
  obtain ⟨f3, f2, f1, fr, _hc, _hp, hm', _, _⟩ := unmapMem_some_elim hu
  unfold mapperTranslate activeRoot
  rw [hmem, hcr3, hm']
  rcases resolveRec_memWrite_zero (t := f1) (i := p.p1_index) hr with hnone | hsame
  · rw [hnone]
  · rw [hsame]
    have := translatePage_after_unmapMem hu
    rw [hm'] at this
    exact this

/-- `TemporaryPage::unmap` leaves the reserved page untranslatable. -/
theorem tempPage_unmap_translate_none {tp : TemporaryPage} {st st' : Machine}
    {tp' : TemporaryPage} {o : List Op}
    (h : tp.unmap st = some (st', tp', o)) :
    mapperTranslate st' tp.page = none := by
  unfold TemporaryPage.unmap at h
  split at h
  · exact absurd h (by simp)
  · rename_i r hr
    split at h
    · exact absurd h (by simp)
    · rename_i m pool2 o2 hu
      cases h
      exact mapperTranslate_after_unmap hr hu rfl rfl

/-- `unmapActive` (the mapper's `unmap` on the main allocator) leaves the page
untranslatable. -/
theorem unmapActive_translate_none {st st' : Machine} {p : Page} {o : List Op}
    (h : unmapActive st p = some (st', o)) :
    mapperTranslate st' p = none := by
  unfold unmapActive at h
  split at h
  · exact absurd h (by simp)
  · rename_i r hr
    split at h
    · exact absurd h (by simp)
    · rename_i m fr o2 hu
      cases h
      exact mapperTranslate_after_unmap hr hu rfl rfl

@[simp]
theorem backupOf_eq (st : Machine) : backupOf st = Frame.mk st.cr3 := by
  simp [backupOf]

@[simp]
theorem writeEntrySt_cr3 (st : Machine) (t i v : Nat) :
    (writeEntrySt st t i v).cr3 = st.cr3 := rfl

@[simp]
theorem writeEntrySt_mem (st : Machine) (t i v : Nat) :
    (writeEntrySt st t i v).mem = memWrite st.mem t i v := rfl

theorem tp_map_table_frame_elim {tp : TemporaryPage} {f : Frame}
    {st st1 : Machine} {tp1 : TemporaryPage} {o1 : List Op}
    (h : tp.map_table_frame f st = some (st1, tp1, o1)) :
    ∃ r m pool2, activeRoot st = some r
      ∧ map_to st.mem r tp.page f WRITABLE tp.pool = some (m, pool2, o1)
      ∧ st1 = { st with mem := m }
      ∧ tp1 = ⟨tp.page, pool2⟩ := by
  unfold TemporaryPage.map_table_frame at h
  split at h
  · exact absurd h (by simp)
  · rename_i r hr
    split at h
    · exact absurd h (by simp)
    · rename_i m pool2 o hm
      simp only [Option.some_inj, Prod.mk.injEq] at h
      obtain ⟨h1, h2, h3⟩ := h
      exact ⟨r, m, pool2, hr, h3 ▸ hm, h1.symm, h2.symm⟩

theorem tp_unmap_elim {tp : TemporaryPage} {st st' : Machine}
    {tp' : TemporaryPage} {o : List Op}
    (h : tp.unmap st = some (st', tp', o)) :
    ∃ r m pool2, activeRoot st = some r
      ∧ unmapMem st.mem r tp.page tp.pool = some (m, pool2, o)
      ∧ st' = { st with mem := m }
      ∧ tp' = ⟨tp.page, pool2⟩ := by
  unfold TemporaryPage.unmap at h
  split at h
  · exact absurd h (by simp)
  · rename_i r hr
    split at h
    · exact absurd h (by simp)
    · rename_i m pool2 o2 hm
      simp only [Option.some_inj, Prod.mk.injEq] at h
      obtain ⟨h1, h2, h3⟩ := h
      exact ⟨r, m, pool2, hr, h3 ▸ hm, h1.symm, h2.symm⟩

/-! Trace lemmas: the mapping primitives never write the control register. -/

theorem ntc_no_writeCr3 {m : Mem} {t idx : Nat} {free : List Frame}
    {c : Nat} {m2 : Mem} {free2 : List Frame} {o : List Op}
    (h : next_table_create m t idx free = some (c, m2, free2, o)) :
    ∀ g, Op.writeCr3 g ∉ o := by
  unfold next_table_create at h
  split at h
  · simp only [Option.some_inj, Prod.mk.injEq] at h
    obtain ⟨-, -, -, ho⟩ := h
    subst ho
    simp
  · split at h
    · exact absurd h (by simp)
    · simp only [Option.some_inj, Prod.mk.injEq] at h
      obtain ⟨-, -, -, ho⟩ := h
      subst ho
      simp

theorem map_to_no_writeCr3 {m : Mem} {root : Nat} {p : Page} {f : Frame}
    {flags : Nat} {free : List Frame} {m' : Mem} {free' : List Frame}
    {o : List Op}
    (h : map_to m root p f flags free = some (m', free', o)) :
    ∀ g, Op.writeCr3 g ∉ o := by
  unfold map_to at h
  split at h
  · exact absurd h (by simp)
  · rename_i f3 m1 free1 o1 h1
    split at h
    · exact absurd h (by simp)
    · rename_i f2 m2 free2 o2 h2
      split at h
      · exact absurd h (by simp)
      · rename_i f1 m3 free3 o3 h3
        split at h
        · simp only [Option.some_inj, Prod.mk.injEq] at h
          obtain ⟨-, -, ho⟩ := h
          subst ho
          intro g
          simp only [List.mem_append, List.mem_singleton]
          rintro (((hg | hg) | hg) | hg)
          · exact ntc_no_writeCr3 h1 g hg
          · exact ntc_no_writeCr3 h2 g hg
          · exact ntc_no_writeCr3 h3 g hg
          · cases hg
        · exact absurd h (by simp)

/-! C5: `InactivePageTable::new`. -/

/-- Claim C5: after `InactivePageTable::new(frame, active_table,
temporary_page)` returns, the table stored in `frame` is all-zero except entry
511, which references `frame` itself with `PRESENT` and `WRITABLE` flags, and
the temporary page is unmapped again before the constructor returns.  The
hypothesis `tp.page.p1_index ≠ 511` holds for the scratch page the kernel
uses (`0xabadcafe`, whose low nine bits are 254). -/
theorem inactive_new_spec (frame : Frame) (st : Machine) (tp : TemporaryPage)
    (it : InactivePageTable) (st' : Machine) (tp' : TemporaryPage) (o : List Op)
    (h : InactivePageTable.new frame st tp = some (it, st', tp', o))
    (hp : tp.page.p1_index ≠ 511) :
    it.p4_frame = frame
    ∧ memRead st'.mem frame.index 511 = entryNew frame (PRESENT + WRITABLE)
    ∧ (∀ i, i ≠ 511 → memRead st'.mem frame.index i = 0)
    ∧ mapperTranslate st' tp.page = none := by
  unfold InactivePageTable.new at h
  split at h
  · exact absurd h (by simp)
  · rename_i st1 tp1 o1 heq1
    split at h
    · exact absurd h (by simp)
    · rename_i st3 tp2 o2 heq2
      simp only [Option.some_inj, Prod.mk.injEq] at h
      obtain ⟨hit, hst, htp, -⟩ := h
      obtain ⟨-, -, pool2, -, -, -, htp1⟩ := tp_map_table_frame_elim heq1
      have htp1page : tp1.page = tp.page := by rw [htp1]
      obtain ⟨r2, m2, pool3, hr2, hu2, hst3, -⟩ := tp_unmap_elim heq2
      obtain ⟨f3u, f2u, f1u, fru, -, -, hm2, -, -⟩ := unmapMem_some_elim hu2
      have hmem3 : st3.mem
          = memWrite (memWrite (zeroFrame st1.mem frame.index) frame.index 511
              (entryNew frame (PRESENT + WRITABLE))) f1u tp1.page.p1_index 0 := by
        rw [hst3, hm2]
      refine ⟨hit.symm ▸ rfl, ?_, ?_, ?_⟩
      · rw [← hst, hmem3, htp1page]
        rw [memRead_memWrite_other (fun hc => hp hc.2.symm)]
        exact memRead_memWrite_self _ _ _ _
      · intro i hi
        rw [← hst, hmem3]
        by_cases hcase : frame.index = f1u ∧ i = tp1.page.p1_index
        · rw [hcase.1, hcase.2, memRead_memWrite_self]
        · rw [memRead_memWrite_other hcase,
            memRead_memWrite_other (fun hc => hi hc.2)]
          simp
      · have := tempPage_unmap_translate_none heq2
        rw [htp1page, hst] at this
        exact this

/-! C1: `ActivePageTable::with` restores the recursive slot, unmaps the
scratch page, and never writes the control register. -/

/-- Claim C1: for every call `ActivePageTable::with(inactive, scratch_page,
body)` that returns, the active table's P4 entry 511 again references the
original active P4 frame with `PRESENT` and `WRITABLE` flags, the scratch page
is unmapped, and the hardware control register is never written during the
call — neither by `with`'s own machinery (its trace contains no `writeCr3`)
nor, by hypothesis matching the body `remap_kernel` passes, by the body.  A
body that fails is modelled as returning `none`, in which case the call never
returns (a panic in this kernel never unwinds), so every exit path of the
call itself performs the restoration. -/
theorem with_spec (st : Machine) (table : InactivePageTable)
    (tp : TemporaryPage) (f : Machine → Option (Machine × List Op))
    (st' : Machine) (tp' : TemporaryPage) (tr : List Op)
    (h : withTable st table tp f = some (st', tp', tr))
    (hp : tp.page.p1_index ≠ 511)
    (hbody : ∀ m m2 o2, f m = some (m2, o2) →
      m2.cr3 = m.cr3 ∧ ∀ g, Op.writeCr3 g ∉ o2) :
    st'.cr3 = st.cr3
    ∧ memRead st'.mem st.cr3 511 = entryNew (Frame.mk st.cr3) (PRESENT + WRITABLE)
    ∧ mapperTranslate st' tp.page = none
    ∧ ∀ g, Op.writeCr3 g ∉ tr := by
  unfold withTable at h
  split at h
  · exact absurd h (by simp)
  · rename_i st1 tp1 o1 heq1
    split at h
    · exact absurd h (by simp)
    · rename_i tgt heqr
      split at h
      · exact absurd h (by simp)
      · rename_i st3 o3 heqf
        split at h
        · exact absurd h (by simp)
        · rename_i st5 tp2 o5 heq2
          simp only [Option.some_inj, Prod.mk.injEq] at h
          obtain ⟨hst, htp, htr⟩ := h
          obtain ⟨r1, mm, pool2, hr1, hmapto, hst1, htp1⟩ := tp_map_table_frame_elim heq1
          have htp1page : tp1.page = tp.page := by rw [htp1]
          have hcr1 : st1.cr3 = st.cr3 := by rw [hst1]
          have hcr3 : st3.cr3 = st.cr3 := by
            have := (hbody _ _ _ heqf).1
            rw [this, writeEntrySt_cr3, hcr1]
          obtain ⟨r2, m2, pool3, hr2, hu2, hst5, -⟩ := tp_unmap_elim heq2
          obtain ⟨f3u, f2u, f1u, fru, -, -, hm2, -, ho5⟩ := unmapMem_some_elim hu2
          have hmem5 : st5.mem
              = memWrite (memWrite st3.mem (backupOf st).index 511
                  (entryNew (backupOf st) (PRESENT + WRITABLE))) f1u tp1.page.p1_index 0 := by
            rw [hst5, hm2]
            rfl
          have hcr5 : st5.cr3 = st.cr3 := by
            rw [hst5]
            simpa using hcr3
          refine ⟨hst ▸ hcr5, ?_, ?_, ?_⟩
          · rw [← hst, hmem5, htp1page]
            rw [memRead_memWrite_other (fun hc => hp hc.2.symm)]
            simp
          · have := tempPage_unmap_translate_none heq2
            rw [htp1page, hst] at this
            exact this
          · intro g
            rw [← htr]
            simp only [List.mem_append]
            rintro ((((hg | hg) | hg) | hg) | hg)
            · exact map_to_no_writeCr3 hmapto g hg
            · simp at hg
            · exact (hbody _ _ _ heqf).2 g hg
            · simp at hg
            · rw [ho5] at hg
              simp at hg

/-! C6: the borrowed-slot window is bracketed by full TLB flushes. -/

/-- Claim C6: in the trace of a returning `ActivePageTable::with` call, a full
TLB flush immediately follows the write that substitutes the inactive table's
P4 frame into recursive slot 511, and another full flush immediately follows
the write that restores the original self-reference; the body's operations
(the window in which recursive addressing resolves to the inactive table) lie
strictly between the two flush-bracketed writes, with nothing between either
slot mutation and its flush. -/
theorem with_flush_bracketing (st : Machine) (table : InactivePageTable)
    (tp : TemporaryPage) (f : Machine → Option (Machine × List Op))
    (st' : Machine) (tp' : TemporaryPage) (tr : List Op)
    (h : withTable st table tp f = some (st', tp', tr)) :
    ∃ o1 tgt stm stb o3 o5,
      f stm = some (stb, o3)
      ∧ tr = o1
          ++ [Op.writeEntry tgt 511 (entryNew table.p4_frame (PRESENT + WRITABLE)),
              Op.flushAll]
          ++ o3
          ++ [Op.writeEntry st.cr3 511 (entryNew (Frame.mk st.cr3) (PRESENT + WRITABLE)),
              Op.flushAll]
          ++ o5 := by
  unfold withTable at h
  split at h
  · exact absurd h (by simp)
  · rename_i st1 tp1 o1 heq1
    split at h
    · exact absurd h (by simp)
    · rename_i tgt heqr
      split at h
      · exact absurd h (by simp)
      · rename_i st3 o3 heqf
        split at h
        · exact absurd h (by simp)
        · rename_i st5 tp2 o5 heq2
          simp only [Option.some_inj, Prod.mk.injEq] at h
          obtain ⟨-, -, htr⟩ := h
          refine ⟨o1, tgt, _, st3, o3, o5, heqf, ?_⟩
          rw [← htr]
          simp

/-! Preservation of the control register by the mapping operations (needed to
identify the demoted table's frame in `remap_kernel`). -/

theorem identity_map_cr3 {st : Machine} {f : Frame} {flags : Nat}
    {st' : Machine} {o : List Op}
    (h : identity_map st f flags = some (st', o)) : st'.cr3 = st.cr3 := by
  unfold identity_map at h
  split at h
  · exact absurd h (by simp)
  · split at h
    · exact absurd h (by simp)
    · simp only [Option.some_inj, Prod.mk.injEq] at h
      rw [← h.1]

theorem mapFramesWith_cr3 {flags : Nat} {l : List Frame} {st st' : Machine}
    {o : List Op}
    (h : mapFramesWith flags l st = some (st', o)) : st'.cr3 = st.cr3 := by
  induction l generalizing st o with
  | nil =>
    simp only [mapFramesWith, Option.some_inj, Prod.mk.injEq] at h
    rw [← h.1]
  | cons f rest ih =>
    unfold mapFramesWith at h
    split at h
    · exact absurd h (by simp)
    · rename_i st1 o1 h1
      split at h
      · exact absurd h (by simp)
      · rename_i st2 o2 h2
        simp only [Option.some_inj, Prod.mk.injEq] at h
        obtain ⟨rfl, -⟩ := h
        rw [ih h2, identity_map_cr3 h1]

theorem mapSections_cr3 {secs : List ElfSection} {st st' : Machine} {o : List Op}
    (h : mapSections secs st = some (st', o)) : st'.cr3 = st.cr3 := by
  induction secs generalizing st o with
  | nil =>
    simp only [mapSections, Option.some_inj, Prod.mk.injEq] at h
    rw [← h.1]
  | cons s rest ih =>
    unfold mapSections at h
    split at h
    · exact ih h
    · split at h
      · split at h
        · exact absurd h (by simp)
        · rename_i st1 o1 h1
          split at h
          · exact absurd h (by simp)
          · rename_i st2 o2 h2
            simp only [Option.some_inj, Prod.mk.injEq] at h
            obtain ⟨rfl, -⟩ := h
            rw [ih h2, mapFramesWith_cr3 h1]
      · exact absurd h (by simp)

theorem remapBody_cr3 {bi : BootInformation} {st st' : Machine} {o : List Op}
    (h : remapBody bi st = some (st', o)) : st'.cr3 = st.cr3 := by
  unfold remapBody at h
  split at h
  · exact absurd h (by simp)
  · split at h
    · exact absurd h (by simp)
    · rename_i st1 o1 h1
      split at h
      · exact absurd h (by simp)
      · rename_i st2 o2 h2
        split at h
        · exact absurd h (by simp)
        · rename_i st3 o3 h3
          simp only [Option.some_inj, Prod.mk.injEq] at h
          rw [← h.1]
          rw [mapFramesWith_cr3 h3, identity_map_cr3 h2, mapSections_cr3 h1]

theorem inactive_new_cr3 {frame : Frame} {st : Machine} {tp : TemporaryPage}
    {it : InactivePageTable} {st' : Machine} {tp' : TemporaryPage} {o : List Op}
    (h : InactivePageTable.new frame st tp = some (it, st', tp', o)) :
    st'.cr3 = st.cr3 := by
  unfold InactivePageTable.new at h
  split at h
  · exact absurd h (by simp)
  · rename_i st1 tp1 o1 heq1
    split at h
    · exact absurd h (by simp)
    · rename_i st3 tp2 o2 heq2
      simp only [Option.some_inj, Prod.mk.injEq] at h
      obtain ⟨-, hst, -, -⟩ := h
      obtain ⟨r1, m1, pool2, ha1, hb1, hst1, hd1⟩ := tp_map_table_frame_elim heq1
      obtain ⟨r2, m2, pool3, ha2, hb2, hst3, hd2⟩ := tp_unmap_elim heq2
      have h1cr : st1.cr3 = st.cr3 := by rw [hst1]
      have h3cr : st3.cr3 = st1.cr3 := by simp [hst3]
      rw [← hst, h3cr, h1cr]

theorem withTable_cr3 {st : Machine} {table : InactivePageTable}
    {tp : TemporaryPage} {f : Machine → Option (Machine × List Op)}
    {st' : Machine} {tp' : TemporaryPage} {tr : List Op}
    (h : withTable st table tp f = some (st', tp', tr))
    (hbody : ∀ m m2 o2, f m = some (m2, o2) → m2.cr3 = m.cr3) :
    st'.cr3 = st.cr3 := by
  unfold withTable at h
  split at h
  · exact absurd h (by simp)
  · rename_i st1 tp1 o1 heq1
    split at h
    · exact absurd h (by simp)
    · rename_i tgt heqr
      split at h
      · exact absurd h (by simp)
      · rename_i st3 o3 heqf
        split at h
        · exact absurd h (by simp)
        · rename_i st5 tp2 o5 heq2
          simp only [Option.some_inj, Prod.mk.injEq] at h
          obtain ⟨hst, -, -⟩ := h
          obtain ⟨r1, m1, pool2, ha1, hb1, hst1, hd1⟩ := tp_map_table_frame_elim heq1
          obtain ⟨r2, m2, pool3, ha2, hb2, hst5, hd2⟩ := tp_unmap_elim heq2
          have h1cr : st1.cr3 = st.cr3 := by rw [hst1]
          have h3cr : st3.cr3 = st.cr3 := by
            have := hbody _ _ _ heqf
            rw [this, writeEntrySt_cr3, h1cr]
          have h5cr : st5.cr3 = st3.cr3 := by simp [hst5]
          rw [← hst, h5cr, h3cr]

/-! C2: the guard page after `remap_kernel`. -/

/-- Claim C2: after `remap_kernel` completes, translating the virtual address
that held the old P4 table's alias (the page containing the demoted P4
frame's start address, the one page the code turns into a guard page) yields
an empty result. -/
theorem remap_guard (boot_info : BootInformation) (st0 : Machine)
    (st' : Machine) (o : List Op)
    (h : remap_kernel boot_info st0 = some (st', o)) :
    mapperTranslate st'
      (Page.containing_address (Frame.start_address (Frame.mk st0.cr3))) = none := by
  unfold remap_kernel at h
  split at h
  · exact absurd h (by simp)
  · rename_i tp free1 h1
    split at h
    · exact absurd h (by simp)
    · rename_i f free2 h2
      split at h
      · exact absurd h (by simp)
      · rename_i new_table st3 tp1 o1 h3
        split at h
        · exact absurd h (by simp)
        · rename_i st4 tp2 o2 h4
          split at h
          · exact absurd h (by simp)
          · rename_i st6 o4 h5
            simp only [Option.some_inj, Prod.mk.injEq] at h
            obtain ⟨hst, -⟩ := h
            have hcr4 : st4.cr3 = st0.cr3 := by
              have hw := withTable_cr3 h4 (fun m m2 o2 hm => remapBody_cr3 hm)
              have hn := inactive_new_cr3 h3
              rw [hw, hn]
            have hpage : (switch st4 new_table).1.p4_frame = Frame.mk st0.cr3 := by
              simp [switch, hcr4]
            rw [hpage] at h5
            rw [← hst]
            exact unmapActive_translate_none h5

/-! C3: the alignment assertion in the section loop. -/

theorem mapSections_none_of_misaligned {secs : List ElfSection} {s : ElfSection}
    (hs : s ∈ secs) (ha : s.is_allocated = true)
    (hmis : s.start_address % Frame.SIZE ≠ 0) :
    ∀ st, mapSections secs st = none := by
  induction secs with
  | nil => cases hs
  | cons t rest ih =>
    intro st
    rcases List.mem_cons.mp hs with rfl | hmem
    · unfold mapSections
      rw [if_neg (by simp [ha]), if_neg hmis]
    · unfold mapSections
      by_cases hta : t.is_allocated = false
      · rw [if_pos hta]
        exact ih hmem st
      · rw [if_neg hta]
        by_cases htal : t.start_address % Frame.SIZE = 0
        · rw [if_pos htal]
          cases h1 : mapFramesWith (EntryFlags.from_elf_section_flags t)
              (Frame.range_inclusive (Frame.containing_address t.start_address)
                (Frame.containing_address (t.end_address - 1))).toList st with
          | none => rfl
          | some x =>
            obtain ⟨st1, o1⟩ := x
            simp only [ih hmem st1]
        · rw [if_neg htal]

theorem remapBody_none_of_misaligned {bi : BootInformation}
    {secs : List ElfSection} {s : ElfSection} {st : Machine}
    (hsecs : bi.elf_sections_tag = some secs) (hs : s ∈ secs)
    (ha : s.is_allocated = true) (hmis : s.start_address % Frame.SIZE ≠ 0) :
    remapBody bi st = none := by
  simp only [remapBody, hsecs, mapSections_none_of_misaligned hs ha hmis]

theorem withTable_none {st : Machine} {table : InactivePageTable}
    {tp : TemporaryPage} {f : Machine → Option (Machine × List Op)}
    (hf : ∀ m, f m = none) : withTable st table tp f = none := by
  cases h1 : tp.map_table_frame (backupOf st) st with
  | none => simp only [withTable, h1]
  | some x =>
    obtain ⟨st1, tp1, o1⟩ := x
    cases h2 : activeRoot st1 with
    | none => simp only [withTable, h1, h2]
    | some tgt => simp only [withTable, h1, h2, hf]

/-- Claim C3 as amended: `remap_kernel` asserts page alignment only at an
allocated section's start address; an allocated section whose start is
misaligned causes a fatal failure before any mapping.  (End alignment is not
checked; see the counterexample theorem for a section with a misaligned end
that is mapped without failure.) -/
theorem elf_misalignment_fatal (bi : BootInformation) (st0 : Machine)
    (secs : List ElfSection) (s : ElfSection)
    (hsecs : bi.elf_sections_tag = some secs) (hs : s ∈ secs)
    (ha : s.is_allocated = true)
    (hmis : s.start_address % Frame.SIZE ≠ 0) :
    remap_kernel bi st0 = none := by
  cases h1 : TemporaryPage.new (Page.mk 0xabadcafe) st0.free with
  | none => simp only [remap_kernel, h1]
  | some x =>
    obtain ⟨tp, free1⟩ := x
    cases h2 : alloc_frame free1 with
    | none => simp only [remap_kernel, h1, h2]
    | some y =>
      obtain ⟨f, free2⟩ := y
      cases h3 : InactivePageTable.new f { st0 with free := free2 } tp with
      | none => simp only [remap_kernel, h1, h2, h3]
      | some z =>
        obtain ⟨nt, st3, tp1, o1⟩ := z
        simp only [remap_kernel, h1, h2, h3,
          withTable_none (fun m => remapBody_none_of_misaligned hsecs hs ha hmis)]

/-! Concrete machine used to exercise the definitions: the boot-time P4 sits
in frame 10 with its recursive slot 511 self-referencing; the kernel image is
one writable, non-executable section spanning frames 10-12; the multiboot
structure sits in frame 5; the allocator owns frames 100 and up. -/

def demoTab : Nat → Nat :=
  fun i => if i = 511 then entryNew ⟨10⟩ (PRESENT + WRITABLE) else 0

def demoMem : Mem := [(10, demoTab)]

def demoTP : TemporaryPage := ⟨Page.mk 0xabadcafe, [⟨100⟩, ⟨101⟩, ⟨102⟩]⟩

def demoStA : Machine := ⟨demoMem, 10, []⟩

def demoBody : Machine → Option (Machine × List Op) := fun m => some (m, [])

def demoSt0 : Machine :=
  ⟨demoMem, 10,
    [⟨100⟩, ⟨101⟩, ⟨102⟩, ⟨103⟩, ⟨104⟩, ⟨105⟩, ⟨106⟩, ⟨107⟩, ⟨108⟩, ⟨109⟩]⟩

def demoBoot : BootInformation :=
  ⟨some [⟨10 * 4096, 3 * 4096, true, true, false⟩],
   some [⟨0, 4194304⟩], 5 * 4096, 5 * 4096 + 100⟩

/-- Boot information whose single allocated section starts page-aligned but
ends misaligned (size `2 * 4096 + 17`). -/
def demoBootMis : BootInformation :=
  ⟨some [⟨10 * 4096, 2 * 4096 + 17, true, true, false⟩],
   some [⟨0, 4194304⟩], 5 * 4096, 5 * 4096 + 100⟩

/-- Boot information whose single allocated section starts misaligned. -/
def demoBadBoot : BootInformation :=
  ⟨some [⟨10 * 4096 + 1, 4096, true, true, false⟩],
   some [⟨0, 4194304⟩], 5 * 4096, 5 * 4096 + 100⟩

/-- Counterexample for claim C3 as stated: this allocated section is
page-aligned at its start but misaligned at its end, yet `remap_kernel`
succeeds (no fatal failure) and the section's final, partially covered frame
12 is mapped.  The code asserts only start alignment. -/
theorem both_ends_alignment_counterexample :
    (ElfSection.mk (10 * 4096) (2 * 4096 + 17) true true false).is_allocated = true
    ∧ (ElfSection.mk (10 * 4096) (2 * 4096 + 17) true true false).end_address
        % Frame.SIZE ≠ 0
    ∧ demoBootMis.elf_sections_tag
        = some [ElfSection.mk (10 * 4096) (2 * 4096 + 17) true true false]
    ∧ (remap_kernel demoBootMis demoSt0).isSome = true
    ∧ (remap_kernel demoBootMis demoSt0).map
        (fun r => mapperTranslate r.1 (Page.mk 12)) = some (some 12) :=
  ⟨rfl, by decide, rfl, rfl, rfl⟩

/-- Witness for the amended C3 at a concrete input: a section starting at
`10 * 4096 + 1` makes `remap_kernel` fail. -/
theorem elf_misalignment_fatal_witness :
    remap_kernel demoBadBoot demoSt0 = none :=
  elf_misalignment_fatal demoBadBoot demoSt0
    [ElfSection.mk (10 * 4096 + 1) 4096 true true false]
    (ElfSection.mk (10 * 4096 + 1) 4096 true true false)
    rfl (by simp) rfl (by decide)

/-- Witness for C2: on the concrete boot scenario, `remap_kernel` succeeds and
the old P4 frame's page translates to nothing afterwards. -/
theorem remap_guard_witness :
    ∃ r, remap_kernel demoBoot demoSt0 = some r
      ∧ mapperTranslate r.1
          (Page.containing_address (Frame.start_address (Frame.mk demoSt0.cr3))) = none := by
  cases h : remap_kernel demoBoot demoSt0 with
  | none =>
    have hs : (remap_kernel demoBoot demoSt0).isSome = true := rfl
    rw [h] at hs
    simp at hs
  | some r =>
    obtain ⟨st', o⟩ := r
    exact ⟨(st', o), rfl, remap_guard demoBoot demoSt0 st' o h⟩

/-- Witness for C5 at a concrete input: building an inactive table in frame
103 through the scratch page succeeds, the result owns frame 103, its slot 511
self-references, and the scratch page translates to nothing. -/
theorem inactive_new_spec_witness :
    ∃ r, InactivePageTable.new ⟨103⟩ demoStA demoTP = some r
      ∧ r.1.p4_frame = Frame.mk 103
      ∧ memRead r.2.1.mem 103 511 = entryNew ⟨103⟩ (PRESENT + WRITABLE)
      ∧ mapperTranslate r.2.1 demoTP.page = none := by
  cases h : InactivePageTable.new ⟨103⟩ demoStA demoTP with
  | none =>
    have hs : (InactivePageTable.new ⟨103⟩ demoStA demoTP).isSome = true := rfl
    rw [h] at hs
    simp at hs
  | some r =>
    obtain ⟨it, st', tp', o⟩ := r
    have hspec := inactive_new_spec ⟨103⟩ demoStA demoTP it st' tp' o h (by decide)
    exact ⟨(it, st', tp', o), rfl, hspec.1, hspec.2.1, hspec.2.2.2⟩

/-- Witness for C1 at a concrete input: a `with` call around the identity body
returns, keeps Cr3 at frame 10, and restores the self-reference. -/
theorem with_spec_witness :
    ∃ r, withTable demoStA ⟨⟨103⟩⟩ demoTP demoBody = some r
      ∧ r.1.cr3 = demoStA.cr3
      ∧ memRead r.1.mem 10 511 = entryNew ⟨10⟩ (PRESENT + WRITABLE)
      ∧ mapperTranslate r.1 demoTP.page = none := by
  cases h : withTable demoStA ⟨⟨103⟩⟩ demoTP demoBody with
  | none =>
    have hs : (withTable demoStA ⟨⟨103⟩⟩ demoTP demoBody).isSome = true := rfl
    rw [h] at hs
    simp at hs
  | some r =>
    obtain ⟨st', tp', tr⟩ := r
    have hspec := with_spec demoStA ⟨⟨103⟩⟩ demoTP demoBody st' tp' tr h (by decide)
      (fun m m2 o2 hm => by
        cases hm
        exact ⟨rfl, by simp⟩)
    exact ⟨(st', tp', tr), rfl, hspec.1, hspec.2.1, hspec.2.2.1⟩

/-- Witness for C6 at a concrete input: the trace of the same `with` call has
the flush-bracketed shape. -/
theorem with_flush_bracketing_witness :
    ∃ r, withTable demoStA ⟨⟨103⟩⟩ demoTP demoBody = some r
      ∧ ∃ o1 tgt stm stb o3 o5,
        demoBody stm = some (stb, o3)
        ∧ r.2.2 = o1
            ++ [Op.writeEntry tgt 511
                  (entryNew (InactivePageTable.mk ⟨103⟩).p4_frame (PRESENT + WRITABLE)),
                Op.flushAll]
            ++ o3
            ++ [Op.writeEntry demoStA.cr3 511
                  (entryNew (Frame.mk demoStA.cr3) (PRESENT + WRITABLE)),
                Op.flushAll]
            ++ o5 := by
  cases h : withTable demoStA ⟨⟨103⟩⟩ demoTP demoBody with
  | none =>
    have hs : (withTable demoStA ⟨⟨103⟩⟩ demoTP demoBody).isSome = true := rfl
    rw [h] at hs
    simp at hs
  | some r =>
    obtain ⟨st', tp', tr⟩ := r
    exact ⟨(st', tp', tr), rfl,
      with_flush_bracketing demoStA ⟨⟨103⟩⟩ demoTP demoBody st' tp' tr h⟩

/-! C9: `memory::init` may only be called once. -/

/-- Claim C9: calling `memory::init` a second time is a fatal error (the
first-call guard fails regardless of the arguments), while the first call
succeeds on well-formed boot information, demonstrated on the concrete boot
scenario. -/
theorem init_second_call_fatal :
    (∀ (bi : BootInformation) (st : Machine), init true bi st = none)
    ∧ (init false demoBoot demoSt0).isSome = true := by
  constructor
  · intro bi st
    rfl
  · rfl

/-! Machinery for C10: preservation of existing translations and freshness of
the allocator's frames across `map_to` calls. -/

/-- `m'` preserves every read of `m` that decodes to a present entry.  All
mutations `map_to` performs write either to a frame the paging code has never
touched (which reads as zero) or to a location whose old value was not
present, so present reads survive. -/
def MPreserves (m m' : Mem) : Prop :=
  ∀ t i, (pointedFrame (memRead m t i)).isSome → memRead m' t i = memRead m t i

/-- Frame `g` is fresh for `m`: the paging code has never written it and no
present entry of any written table points at it (table slots are 9-bit, so
only indices below 512 matter). -/
def freshFor (m : Mem) (g : Nat) : Prop :=
  g ∉ framesOf m
  ∧ ∀ t ∈ framesOf m, ∀ i ∈ List.range 512, pointedFrame (memRead m t i) ≠ some g

/-- The allocator invariant for a mapping root: the free frames are distinct,
none of them is the root, and each is small enough for the entry encoding and
fresh for the memory.  This is the allocator contract of the spec (allocation
never returns a frame already in use) specialized to what `map_to` needs. -/
def Fresh (m : Mem) (root : Nat) (free : List Frame) : Prop :=
  (free.map Frame.index).Nodup
  ∧ root ∉ free.map Frame.index
  ∧ ∀ g ∈ free.map Frame.index, g < 1099511627776 ∧ freshFor m g

instance (m : Mem) (g : Nat) : Decidable (freshFor m g) := by
  unfold freshFor
  infer_instance

instance (m : Mem) (root : Nat) (free : List Frame) :
    Decidable (Fresh m root free) := by
  unfold Fresh
  infer_instance

theorem MPreserves_refl (m : Mem) : MPreserves m m := fun _ _ _ => rfl

theorem MPreserves_trans {m1 m2 m3 : Mem}
    (h12 : MPreserves m1 m2) (h23 : MPreserves m2 m3) : MPreserves m1 m3 := by
  intro t i hp
  rw [h23 t i (by rw [h12 t i hp]; exact hp), h12 t i hp]

theorem memRead_not_mem_framesOf {m : Mem} {t : Nat} (h : t ∉ framesOf m)
    (i : Nat) : memRead m t i = 0 := by
  by_contra hne
  exact h (memRead_ne_zero_mem_framesOf hne)

theorem MPreserves_memWrite_absent {m : Mem} {t i : Nat} (v : Nat)
    (h : pointedFrame (memRead m t i) = none) :
    MPreserves m (memWrite m t i v) := by
  intro a b hp
  by_cases hc : a = t ∧ b = i
  · rw [hc.1, hc.2] at hp
    rw [h] at hp
    simp at hp
  · exact memRead_memWrite_other hc

theorem MPreserves_zeroFrame {m : Mem} {g : Nat} (h : g ∉ framesOf m) :
    MPreserves m (zeroFrame m g) := by
  intro a b hp
  rw [memRead_zeroFrame]
  split
  · rename_i hag
    rw [hag] at hp
    rw [memRead_not_mem_framesOf h b] at hp
    simp at hp
  · rfl

theorem freshFor_pointed {m : Mem} {g : Nat} (h : freshFor m g) :
    ∀ t i, i < 512 → pointedFrame (memRead m t i) ≠ some g := by
  intro t i hi
  by_cases ht : t ∈ framesOf m
  · exact h.2 t ht i (List.mem_range.mpr hi)
  · rw [memRead_not_mem_framesOf ht i]
    simp

theorem readPreserved {m m' : Mem} {t i c : Nat} (h : MPreserves m m')
    (hp : pointedFrame (memRead m t i) = some c) :
    pointedFrame (memRead m' t i) = some c := by
  rw [h t i (by rw [hp]; rfl)]
  exact hp

/-- Decoding an entry written by `Entry::set`: with an odd low flag word below
4096, an optional no-execute bit, and a frame index within the 40-bit
physical-frame field, `pointed_frame` recovers exactly the stored frame. -/
theorem pointedFrame_entryNew (f : Frame) (lo hi : Nat)
    (hlo1 : lo % 2 = 1) (hlo : lo < 4096) (hf : f.index < 1099511627776) :
    pointedFrame (entryNew f (lo + hi * NO_EXECUTE)) = some f.index := by
  unfold pointedFrame entryNew Frame.start_address PAGE_SIZE NO_EXECUTE ADDR_RANGE
  have hsplit : f.index * 4096 + (lo + hi * 9223372036854775808)
      = (f.index * 4096 + lo) + (hi * 2048) * 4503599627370496 := by ring
  rw [if_pos (by omega)]
  rw [hsplit, Nat.add_mul_mod_self_right]
  rw [Nat.mod_eq_of_lt (by omega)]
  have hdiv : (f.index * 4096 + lo) / 4096 = f.index := by omega
  rw [hdiv]

/-- Admissible flag words: what `orPresent` yields on every flag combination
this kernel passes to `map_to`. -/
def FlagsShape (flags : Nat) : Prop :=
  ∃ lo hi, orPresent flags = lo + hi * NO_EXECUTE ∧ lo % 2 = 1 ∧ lo < 4096

theorem flagsShape_writable : FlagsShape WRITABLE :=
  ⟨3, 0, by decide, by decide, by decide⟩

theorem flagsShape_pw : FlagsShape (PRESENT + WRITABLE) :=
  ⟨3, 0, by decide, by decide, by decide⟩

theorem flagsShape_from_elf (s : ElfSection) :
    FlagsShape (EntryFlags.from_elf_section_flags s) := by
  unfold EntryFlags.from_elf_section_flags
  cases hw : s.writable <;> cases hx : s.executable
  · exact ⟨1, 1, by decide, by decide, by decide⟩
  · exact ⟨1, 0, by decide, by decide, by decide⟩
  · exact ⟨3, 1, by decide, by decide, by decide⟩
  · exact ⟨3, 0, by decide, by decide, by decide⟩

theorem pointedFrame_entryNew_pw {f : Frame} (hf : f.index < 1099511627776) :
    pointedFrame (entryNew f (PRESENT + WRITABLE)) = some f.index := by
  have h := pointedFrame_entryNew f 3 0 (by decide) (by decide) hf
  simpa [PRESENT, WRITABLE] using h

theorem page_p4_index_lt (p : Page) : p.p4_index < 512 :=
  Nat.mod_lt _ (by omega)

theorem page_p3_index_lt (p : Page) : p.p3_index < 512 :=
  Nat.mod_lt _ (by omega)

theorem page_p2_index_lt (p : Page) : p.p2_index < 512 :=
  Nat.mod_lt _ (by omega)

theorem page_p1_index_lt (p : Page) : p.p1_index < 512 :=
  Nat.mod_lt _ (by omega)

theorem chainOf_preserved {m m' : Mem} (h : MPreserves m m')
    {root : Nat} {p : Page} {c : Nat × Nat × Nat}
    (hc : chainOf m root p = some c) : chainOf m' root p = some c := by
  obtain ⟨f3, f2, f1⟩ := c
  obtain ⟨h4, h3, h2⟩ := chainOf_some_elim hc
  simp [chainOf, readPreserved h h4, readPreserved h h3, readPreserved h h2]

theorem translatePage_some_elim {m : Mem} {root : Nat} {p : Page} {x : Nat}
    (h : translatePage m root p = some x) :
    ∃ f3 f2 f1, chainOf m root p = some (f3, f2, f1)
      ∧ pointedFrame (memRead m f1 p.p1_index) = some x := by
  unfold translatePage at h
  split at h
  · exact absurd h (by simp)
  · rename_i f3 f2 f1 hc
    exact ⟨f3, f2, f1, hc, h⟩

theorem identityMapped_preserved {m m' : Mem} {root : Nat} {p : Page}
    {x e : Nat} (hM : MPreserves m m')
    (ht : translatePage m root p = some x)
    (hp : p1EntryOf m root p = some e) :
    translatePage m' root p = some x ∧ p1EntryOf m' root p = some e := by
  obtain ⟨f3, f2, f1, hc, hx⟩ := translatePage_some_elim ht
  have he : e = memRead m f1 p.p1_index := by
    unfold p1EntryOf at hp
    rw [hc] at hp
    simp at hp
    exact hp.symm
  have hread : memRead m' f1 p.p1_index = memRead m f1 p.p1_index :=
    hM f1 p.p1_index (by rw [hx]; rfl)
  have hc' := chainOf_preserved hM hc
  constructor
  · unfold translatePage
    simp only [hc', hread, hx]
  · unfold p1EntryOf
    simp only [hc', hread]
    rw [he]

theorem resolveRec_preserved {m m' : Mem} (h : MPreserves m m')
    {c r : Nat} (hr : resolveRec m c = some r) : resolveRec m' c = some r := by
  obtain ⟨a, b, d, ha, hb, hd, hx⟩ := resolveRec_some_elim hr
  simp [resolveRec, readPreserved h ha, readPreserved h hb, readPreserved h hd,
    readPreserved h hx]

/-- Invariant lemma for one `next_table_create` step: present reads are
preserved, the allocator invariant survives, the free list only shrinks, the
parent entry now points at the child, and the child is not among the
remaining free frames. -/
theorem ntc_spec {m : Mem} {t idx : Nat} {free : List Frame} {c : Nat}
    {m2 : Mem} {free2 : List Frame} {o : List Op} {root : Nat}
    (h : next_table_create m t idx free = some (c, m2, free2, o))
    (hF : Fresh m root free) (hidx : idx < 512)
    (ht : t ∉ free.map Frame.index) :
    MPreserves m m2
    ∧ Fresh m2 root free2
    ∧ free2.map Frame.index ⊆ free.map Frame.index
    ∧ pointedFrame (memRead m2 t idx) = some c
    ∧ c ∉ free2.map Frame.index := by
  unfold next_table_create at h
  split at h
  · rename_i c0 hp
    simp only [Option.some_inj, Prod.mk.injEq] at h
    obtain ⟨hc, hm, hfree, -⟩ := h
    subst hm
    subst hfree
    subst hc
    refine ⟨MPreserves_refl m, hF, fun x hx => hx, hp, ?_⟩
    intro hcmem
    obtain ⟨-, -, h3⟩ := hF
    have hfc := (h3 _ hcmem).2
    have htm : t ∈ framesOf m := by
      apply memRead_ne_zero_mem_framesOf
      intro h0
      rw [h0] at hp
      simp at hp
    exact hfc.2 t htm idx (List.mem_range.mpr hidx) hp
  · rename_i hp
    split at h
    · exact absurd h (by simp)
    · rename_i g rest
      simp only [Option.some_inj, Prod.mk.injEq] at h
      obtain ⟨hc, hm, hfree, -⟩ := h
      subst hm
      subst hfree
      subst hc
      have hgmem : g.index ∈ (g :: rest).map Frame.index := by simp
      have hg := hF.2.2 g.index hgmem
      have hg40 : g.index < 1099511627776 := hg.1
      have hgfresh : freshFor m g.index := hg.2
      have hgnm : g.index ∉ framesOf m := hgfresh.1
      have htg : t ≠ g.index := fun he => ht (he ▸ hgmem)
      have hnodup := hF.1
      simp only [List.map_cons, List.nodup_cons] at hnodup
      have hgrest : g.index ∉ rest.map Frame.index := hnodup.1
      have hpz : pointedFrame (memRead (zeroFrame m g.index) t idx) = none := by
        rw [memRead_zeroFrame, if_neg htg]
        exact hp
      have hM : MPreserves m
          (memWrite (zeroFrame m g.index) t idx (entryNew g (PRESENT + WRITABLE))) :=
        MPreserves_trans (MPreserves_zeroFrame hgnm)
          (MPreserves_memWrite_absent _ hpz)
      have hpointed : pointedFrame
          (memRead (memWrite (zeroFrame m g.index) t idx
            (entryNew g (PRESENT + WRITABLE))) t idx) = some g.index := by
        rw [memRead_memWrite_self]
        exact pointedFrame_entryNew_pw hg40
      refine ⟨hM, ?_, ?_, hpointed, hgrest⟩
      · refine ⟨hnodup.2, ?_, ?_⟩
        · intro hmem
          exact hF.2.1 (by simp [hmem])
        · intro x hxmem
          have hx := hF.2.2 x (by simp [hxmem])
          have hxg : x ≠ g.index := fun he => hgrest (he ▸ hxmem)
          have hxt : x ≠ t := fun he => ht (he ▸ (by simp [hxmem]))
          refine ⟨hx.1, ?_, ?_⟩
          · simp only [framesOf_memWrite, framesOf_zeroFrame, List.mem_cons]
            rintro (he | he | he)
            · exact hxt he
            · exact hxg he
            · exact hx.2.1 he
          · intro t' _ht' i' hi'
            by_cases hc1 : t' = t
            · subst hc1
              by_cases hc2 : i' = idx
              · subst hc2
                rw [memRead_memWrite_self, pointedFrame_entryNew_pw hg40]
                intro he
                exact hxg (Option.some_inj.mp he).symm
              · rw [memRead_memWrite_other (fun hcon => hc2 hcon.2)]
                rw [memRead_zeroFrame, if_neg htg]
                exact freshFor_pointed hx.2 t' i' (List.mem_range.mp hi')
            · rw [memRead_memWrite_other (fun hcon => hc1 hcon.1)]
              rw [memRead_zeroFrame]
              split
              · simp
              · exact freshFor_pointed hx.2 t' i' (List.mem_range.mp hi')
      · intro x hx
        simp [hx]

/-- Invariant lemma for `map_to`: present reads are preserved, the allocator
invariant survives, the free list only shrinks, and the page now translates
to the given frame with the P1 entry holding `frame | flags | PRESENT`. -/
theorem map_to_spec {m : Mem} {root : Nat} {p : Page} {f : Frame}
    {flags : Nat} {free : List Frame} {m' : Mem} {free' : List Frame}
    {o : List Op}
    (h : map_to m root p f flags free = some (m', free', o))
    (hF : Fresh m root free)
    (hf40 : f.index < 1099511627776)
    (hffree : f.index ∉ free.map Frame.index)
    (hfl : FlagsShape flags) :
    MPreserves m m'
    ∧ Fresh m' root free'
    ∧ free'.map Frame.index ⊆ free.map Frame.index
    ∧ translatePage m' root p = some f.index
    ∧ p1EntryOf m' root p = some (entryNew f (orPresent flags)) := by
  unfold map_to at h
  split at h
  · exact absurd h (by simp)
  · rename_i f3 m1 free1 o1 h1
    split at h
    · exact absurd h (by simp)
    · rename_i f2 m2 free2 o2 h2
      split at h
      · exact absurd h (by simp)
      · rename_i f1 m3 free3 o3 h3
        split at h
        · rename_i hzero
          simp only [Option.some_inj, Prod.mk.injEq] at h
          obtain ⟨hm, hfree, -⟩ := h
          subst hm
          subst hfree
          obtain ⟨M1, F1, sub1, ptr1, c1nf⟩ :=
            ntc_spec h1 hF (page_p4_index_lt p) hF.2.1
          obtain ⟨M2, F2, sub2, ptr2, c2nf⟩ :=
            ntc_spec h2 F1 (page_p3_index_lt p) c1nf
          obtain ⟨M3, F3, sub3, ptr3, c3nf⟩ :=
            ntc_spec h3 F2 (page_p2_index_lt p) c2nf
          have Mw : MPreserves m3
              (memWrite m3 f1 p.p1_index (entryNew f (orPresent flags))) := by
            apply MPreserves_memWrite_absent
            rw [hzero]
            simp
          have Mall : MPreserves m
              (memWrite m3 f1 p.p1_index (entryNew f (orPresent flags))) :=
            MPreserves_trans (MPreserves_trans (MPreserves_trans M1 M2) M3) Mw
          have r4 : pointedFrame (memRead
              (memWrite m3 f1 p.p1_index (entryNew f (orPresent flags)))
              root p.p4_index) = some f3 :=
            readPreserved Mw (readPreserved M3 (readPreserved M2 ptr1))
          have r3 : pointedFrame (memRead
              (memWrite m3 f1 p.p1_index (entryNew f (orPresent flags)))
              f3 p.p3_index) = some f2 :=
            readPreserved Mw (readPreserved M3 ptr2)
          have r2 : pointedFrame (memRead
              (memWrite m3 f1 p.p1_index (entryNew f (orPresent flags)))
              f2 p.p2_index) = some f1 :=
            readPreserved Mw ptr3
          have hpe : pointedFrame (entryNew f (orPresent flags)) = some f.index := by
            obtain ⟨lo, hi, heq, hlo1, hlo⟩ := hfl
            rw [heq]
            exact pointedFrame_entryNew f lo hi hlo1 hlo hf40
          have hsub : free3.map Frame.index ⊆ free.map Frame.index :=
            fun x hx => sub1 (sub2 (sub3 hx))
          refine ⟨Mall, ⟨F3.1, F3.2.1, ?_⟩, hsub, ?_, ?_⟩
          · intro x hxmem
            have hx := F3.2.2 x hxmem
            have hxf1 : x ≠ f1 := fun he => c3nf (he ▸ hxmem)
            have hxf : x ≠ f.index := fun he => hffree (he ▸ hsub hxmem)
            refine ⟨hx.1, ?_, ?_⟩
            · simp only [framesOf_memWrite, List.mem_cons]
              rintro (he | he)
              · exact hxf1 he
              · exact hx.2.1 he
            · intro t' _ht' i' hi'
              by_cases hc : t' = f1 ∧ i' = p.p1_index
              · rw [hc.1, hc.2, memRead_memWrite_self, hpe]
                intro he
                exact hxf (Option.some_inj.mp he).symm
              · rw [memRead_memWrite_other hc]
                exact freshFor_pointed hx.2 t' i' (List.mem_range.mp hi')
          · simp only [translatePage, chainOf, r4, r3, r2, memRead_memWrite_self, hpe]
          · simp only [p1EntryOf, chainOf, r4, r3, r2, memRead_memWrite_self]
        · exact absurd h (by simp)

/-- Invariant lemma for `identity_map` against the active root. -/
theorem identity_map_spec {st : Machine} {f : Frame} {flags : Nat}
    {st' : Machine} {o : List Op} {root : Nat}
    (h : identity_map st f flags = some (st', o))
    (hr : activeRoot st = some root)
    (hF : Fresh st.mem root st.free)
    (hf40 : f.index < 1099511627776)
    (hffree : f.index ∉ st.free.map Frame.index)
    (hfl : FlagsShape flags) :
    MPreserves st.mem st'.mem
    ∧ Fresh st'.mem root st'.free
    ∧ st'.free.map Frame.index ⊆ st.free.map Frame.index
    ∧ activeRoot st' = some root
    ∧ translatePage st'.mem root (Page.mk f.index) = some f.index
    ∧ p1EntryOf st'.mem root (Page.mk f.index)
        = some (entryNew f (orPresent flags)) := by
  unfold identity_map at h
  split at h
  · exact absurd h (by simp)
  · rename_i r0 hr0
    obtain rfl : root = r0 := by
      rw [hr0] at hr
      exact (Option.some_inj.mp hr).symm
    split at h
    · exact absurd h (by simp)
    · rename_i mm fr oo hmt
      rw [Page.containing_frame_start] at hmt
      simp only [Option.some_inj, Prod.mk.injEq] at h
      obtain ⟨hst, -⟩ := h
      obtain ⟨M, F, hsub, htr, hp1⟩ := map_to_spec hmt hF hf40 hffree hfl
      have hmem : st'.mem = mm := by rw [← hst]
      have hfree : st'.free = fr := by rw [← hst]
      have hcr : st'.cr3 = st.cr3 := by rw [← hst]
      rw [hmem, hfree]
      refine ⟨M, F, hsub, ?_, htr, hp1⟩
      unfold activeRoot at hr0 ⊢
      rw [hmem, hcr]
      exact resolveRec_preserved M hr0

/-- Invariant lemma for a run of `identity_map` calls over a frame list: on
top of the invariants, every frame of the list ends up identity-mapped with
the flags (plus `PRESENT`) in its P1 entry. -/
theorem mapFramesWith_spec {flags : Nat} {l : List Frame} {st st' : Machine}
    {o : List Op} {root : Nat}
    (h : mapFramesWith flags l st = some (st', o))
    (hr : activeRoot st = some root)
    (hF : Fresh st.mem root st.free)
    (hl : ∀ fr ∈ l, fr.index < 1099511627776
      ∧ fr.index ∉ st.free.map Frame.index)
    (hfl : FlagsShape flags) :
    MPreserves st.mem st'.mem
    ∧ Fresh st'.mem root st'.free
    ∧ st'.free.map Frame.index ⊆ st.free.map Frame.index
    ∧ activeRoot st' = some root
    ∧ ∀ fr ∈ l, translatePage st'.mem root (Page.mk fr.index) = some fr.index
        ∧ p1EntryOf st'.mem root (Page.mk fr.index)
            = some (entryNew fr (orPresent flags)) := by
  induction l generalizing st o with
  | nil =>
    simp only [mapFramesWith, Option.some_inj, Prod.mk.injEq] at h
    obtain ⟨rfl, -⟩ := h
    exact ⟨MPreserves_refl _, hF, fun x hx => hx, hr, by simp⟩
  | cons fr rest ih =>
    unfold mapFramesWith at h
    split at h
    · exact absurd h (by simp)
    · rename_i st1 o1 h1
      split at h
      · exact absurd h (by simp)
      · rename_i st2 o2 h2
        simp only [Option.some_inj, Prod.mk.injEq] at h
        obtain ⟨rfl, -⟩ := h
        have hfr := hl fr (by simp)
        obtain ⟨M1, F1, sub1, r1, tr1, p11⟩ :=
          identity_map_spec h1 hr hF hfr.1 hfr.2 hfl
        obtain ⟨M2, F2, sub2, r2, est2⟩ := ih h2 r1 F1
          (fun g hg => ⟨(hl g (by simp [hg])).1,
            fun hin => (hl g (by simp [hg])).2 (sub1 hin)⟩)
        refine ⟨MPreserves_trans M1 M2, F2, fun x hx => sub1 (sub2 hx), r2, ?_⟩
        intro g hg
        rcases List.mem_cons.mp hg with rfl | hgrest
        · exact identityMapped_preserved M2 tr1 p11
        · exact est2 g hgrest

/-- Invariant lemma for the kernel-section loop: the allocator invariant and
the active root survive the whole loop. -/
theorem mapSections_spec {secs : List ElfSection} {st st' : Machine}
    {o : List Op} {root : Nat}
    (h : mapSections secs st = some (st', o))
    (hr : activeRoot st = some root)
    (hF : Fresh st.mem root st.free)
    (hsec : ∀ s ∈ secs,
      ∀ fr ∈ (Frame.range_inclusive (Frame.containing_address s.start_address)
          (Frame.containing_address (s.end_address - 1))).toList,
        fr.index < 1099511627776 ∧ fr.index ∉ st.free.map Frame.index) :
    MPreserves st.mem st'.mem
    ∧ Fresh st'.mem root st'.free
    ∧ st'.free.map Frame.index ⊆ st.free.map Frame.index
    ∧ activeRoot st' = some root := by
  induction secs generalizing st o with
  | nil =>
    simp only [mapSections, Option.some_inj, Prod.mk.injEq] at h
    obtain ⟨rfl, -⟩ := h
    exact ⟨MPreserves_refl _, hF, fun x hx => hx, hr⟩
  | cons s rest ih =>
    unfold mapSections at h
    split at h
    · exact ih h hr hF (fun t ht => hsec t (by simp [ht]))
    · split at h
      · split at h
        · exact absurd h (by simp)
        · rename_i st1 o1 h1
          split at h
          · exact absurd h (by simp)
          · rename_i st2 o2 h2
            simp only [Option.some_inj, Prod.mk.injEq] at h
            obtain ⟨rfl, -⟩ := h
            obtain ⟨M1, F1, sub1, r1, -⟩ :=
              mapFramesWith_spec h1 hr hF (hsec s (by simp))
                (flagsShape_from_elf s)
            obtain ⟨M2, F2, sub2, r2⟩ := ih h2 r1 F1
              (fun t ht g hg => ⟨(hsec t (by simp [ht]) g hg).1,
                fun hin => (hsec t (by simp [ht]) g hg).2 (sub1 hin)⟩)
            exact ⟨MPreserves_trans M1 M2, F2, fun x hx => sub1 (sub2 hx), r2⟩
      · exact absurd h (by simp)

/-! C10: the multiboot structure is identity-mapped present + writable. -/

/-- Claim C10: inside `remap_kernel`'s with-body (`remapBody`), every frame
spanned by the multiboot boot-information structure — from the frame
containing `boot_info.start_address()` through the frame containing
`boot_info.end_address() - 1` inclusive — ends up identity-mapped in the
table under the active root, with its P1 entry carrying exactly the frame's
address plus `PRESENT` and `WRITABLE` (the region is writable, not merely
readable).  The hypotheses are the allocator contract of the spec: the frames
the allocator hands out are distinct, fresh, small enough for the entry
encoding, and disjoint from everything being mapped. -/
theorem multiboot_identity_mapped (bi : BootInformation) (st st' : Machine)
    (o : List Op) (root : Nat) (secs : List ElfSection)
    (h : remapBody bi st = some (st', o))
    (hsecs : bi.elf_sections_tag = some secs)
    (hr : activeRoot st = some root)
    (hF : Fresh st.mem root st.free)
    (hsec : ∀ s ∈ secs,
      ∀ fr ∈ (Frame.range_inclusive (Frame.containing_address s.start_address)
          (Frame.containing_address (s.end_address - 1))).toList,
        fr.index < 1099511627776 ∧ fr.index ∉ st.free.map Frame.index)
    (hvga : (184 : Nat) ∉ st.free.map Frame.index)
    (hmb : ∀ fr ∈ (Frame.range_inclusive (Frame.containing_address bi.start_address)
        (Frame.containing_address (bi.end_address - 1))).toList,
      fr.index < 1099511627776 ∧ fr.index ∉ st.free.map Frame.index) :
    ∀ fr ∈ (Frame.range_inclusive (Frame.containing_address bi.start_address)
        (Frame.containing_address (bi.end_address - 1))).toList,
      translatePage st'.mem root (Page.mk fr.index) = some fr.index
      ∧ p1EntryOf st'.mem root (Page.mk fr.index)
          = some (entryNew fr (PRESENT + WRITABLE)) := by
  unfold remapBody at h
  split at h
  · exact absurd h (by simp)
  · rename_i secs0 heq
    obtain rfl : secs = secs0 := by
      rw [heq] at hsecs
      exact (Option.some_inj.mp hsecs).symm
    split at h
    · exact absurd h (by simp)
    · rename_i st1 o1 h1
      split at h
      · exact absurd h (by simp)
      · rename_i st2 o2 h2
        split at h
        · exact absurd h (by simp)
        · rename_i st3 o3 h3
          simp only [Option.some_inj, Prod.mk.injEq] at h
          obtain ⟨rfl, -⟩ := h
          obtain ⟨M1, F1, sub1, r1⟩ := mapSections_spec h1 hr hF hsec
          obtain ⟨M2, F2, sub2, r2, -, -⟩ :=
            identity_map_spec h2 r1 F1 (by decide)
              (fun hin => hvga (sub1 hin)) flagsShape_writable
          obtain ⟨M3, F3, sub3, r3, est⟩ := mapFramesWith_spec h3 r2 F2
            (fun g hg => ⟨(hmb g hg).1,
              fun hin => (hmb g hg).2 (sub1 (sub2 hin))⟩)
            flagsShape_pw
          intro fr hfr
          have hor : orPresent (PRESENT + WRITABLE) = PRESENT + WRITABLE := rfl
          have := est fr hfr
          rw [hor] at this
          exact this

/-- A concrete machine state as it looks when `remap_kernel`'s body starts
running: the original P4 (frame 10) has its recursive slot substituted with
the new table's frame 103, the scratch page's table chain sits in frames
100-102 with the backed-up frame 10 mapped at the scratch page, and the new
table 103 self-references.  The allocator still owns frames 104-109. -/
def demoMidMem : Mem :=
  [(10, fun i => if i = 511 then entryNew ⟨103⟩ (PRESENT + WRITABLE)
        else if i = 21 then entryNew ⟨100⟩ (PRESENT + WRITABLE) else 0),
   (100, fun i => if i = 234 then entryNew ⟨101⟩ (PRESENT + WRITABLE) else 0),
   (101, fun i => if i = 229 then entryNew ⟨102⟩ (PRESENT + WRITABLE) else 0),
   (102, fun i => if i = 254 then entryNew ⟨10⟩ (PRESENT + WRITABLE) else 0),
   (103, fun i => if i = 511 then entryNew ⟨103⟩ (PRESENT + WRITABLE) else 0)]

def demoMidSt : Machine :=
  ⟨demoMidMem, 10, [⟨104⟩, ⟨105⟩, ⟨106⟩, ⟨107⟩, ⟨108⟩, ⟨109⟩]⟩

set_option maxRecDepth 100000 in
set_option maxHeartbeats 2000000 in
/-- Witness for C10 at a concrete input: running the with-body on the
mid-`with` machine succeeds and identity-maps the multiboot frame present +
writable. -/
theorem multiboot_identity_mapped_witness :
    ∃ r, remapBody demoBoot demoMidSt = some r
      ∧ ∀ fr ∈ (Frame.range_inclusive (Frame.containing_address demoBoot.start_address)
          (Frame.containing_address (demoBoot.end_address - 1))).toList,
        translatePage r.1.mem 103 (Page.mk fr.index) = some fr.index
        ∧ p1EntryOf r.1.mem 103 (Page.mk fr.index)
            = some (entryNew fr (PRESENT + WRITABLE)) := by
  cases h : remapBody demoBoot demoMidSt with
  | none =>
    have hs : (remapBody demoBoot demoMidSt).isSome = true := rfl
    rw [h] at hs
    simp at hs
  | some r =>
    obtain ⟨st', o⟩ := r
    refine ⟨(st', o), rfl, ?_⟩
    exact multiboot_identity_mapped demoBoot demoMidSt st' o 103
      [⟨10 * 4096, 3 * 4096, true, true, false⟩] h rfl rfl (by decide)
      (by decide) (by decide) (by decide)

end Sparkle
